import Mathlib

/-!
# hentities: operation-root resolution, response classification and header merge

A shallow embedding of `hentities.go`, `errors.go` and `repository.go`.

Go strings are modelled as `String` / `List Char` (sequences of code points); every
character the code inspects is ASCII, so nothing depends on the UTF-8 encoding.
The two regular expressions are embedded as the matchers Go's leftmost-first search
runs for them. The libraries the package calls (`gjson`, `encoding/json`, `resty`) are
embedded as far as the package uses them: a response body is a parsed JSON value, the
decoder of the caller's container is a parameter, and the HTTP executor is a parameter.
-/

namespace Hentities

/-! ## Character classes of the two regular expressions (RE2 syntax) -/

/-- The class `\s` of Go's regexp package: `[\t\n\f\r ]`. -/
def isSpace (c : Char) : Bool :=
  c = '\t' || c = '\n' || c = '\x0c' || c = '\r' || c = ' '

/-- The class `[a-zA-Z]`. -/
def isLetter (c : Char) : Bool :=
  (97 ≤ c.toNat && c.toNat ≤ 122) || (65 ≤ c.toNat && c.toNat ≤ 90)

/-- The class `[0-9]`. -/
def isDigit (c : Char) : Bool := 48 ≤ c.toNat && c.toNat ≤ 57

/-- The class `[a-zA-Z0-9]` (operation name in the first expression). -/
def isAlnum (c : Char) : Bool := isLetter c || isDigit c

/-- The class `[a-zA-Z_]` (first character of the second expression). -/
def isIdentStart (c : Char) : Bool := isLetter c || c = '_'

/-- The class `[a-zA-Z0-9_]` (following characters of the second expression). -/
def isIdentChar (c : Char) : Bool := isAlnum c || c = '_'

/-! ## The first expression: `(query|mutation|subscription)\s*([a-zA-Z0-9]*\s*)?(\(.+\)\s*)?` -/

/-- The literal `query`. -/
def kwQuery : List Char := ['q', 'u', 'e', 'r', 'y']

/-- The literal `mutation`. -/
def kwMutation : List Char := ['m', 'u', 't', 'a', 't', 'i', 'o', 'n']

/-- The literal `subscription`. -/
def kwSubscription : List Char := ['s', 'u', 'b', 's', 'c', 'r', 'i', 'p', 't', 'i', 'o', 'n']

/-- Match a literal at the head of the text; the result is the text after it. -/
def dropLiteral : List Char → List Char → Option (List Char)
  | [], s => some s
  | _ :: _, [] => none
  | k :: ks, c :: cs => if k = c then dropLiteral ks cs else none

/-- The alternation `(query|mutation|subscription)`, alternatives tried in order. -/
def matchKeyword (s : List Char) : Option (List Char) :=
  match dropLiteral kwQuery s with
  | some r => some r
  | none =>
    match dropLiteral kwMutation s with
    | some r => some r
    | none => dropLiteral kwSubscription s

/-- Greedy `.*\)`: `.` takes any character but a newline, and takes it first; when the
rest then fails, the current character is tried as the closing parenthesis. -/
def dotStarClose : List Char → Option (List Char)
  | [] => none
  | c :: cs =>
    if c = '\n' then none
    else
      match dotStarClose cs with
      | some r => some r
      | none => if c = ')' then some cs else none

/-- Greedy `.+\)`: one character that is not a newline, then `.*\)`. -/
def dotPlusClose : List Char → Option (List Char)
  | [] => none
  | c :: cs => if c = '\n' then none else dotStarClose cs

/-- The optional group `(\(.+\)\s*)?`: taken when it can match, skipped otherwise. -/
def matchVarDefs (s : List Char) : List Char :=
  match s with
  | '(' :: t =>
    match dotPlusClose t with
    | some r => r.dropWhile isSpace
    | none => s
  | _ => s

/-- One match of the first expression at the head of the text; the result is the text
after the match. Everything after the keyword is optional and greedy, so the first
(preferred) choice of every quantifier is the one the match keeps. -/
def matchOperation (s : List Char) : Option (List Char) :=
  match matchKeyword s with
  | none => none
  | some r₁ =>
    let r₂ := r₁.dropWhile isSpace
    let r₃ := (r₂.dropWhile isAlnum).dropWhile isSpace
    some (matchVarDefs r₃)

/-- Body of `rp.ReplaceAll(q, "")`: scan left to right; `skip` counts the characters of
the current match still to be deleted; outside a match, a match starting at the current
position is deleted, otherwise the character is copied. -/
def replaceAllAux : Nat → List Char → List Char
  | _, [] => []
  | skip + 1, _ :: cs => replaceAllAux skip cs
  | 0, c :: cs =>
    match matchOperation (c :: cs) with
    | some rest => replaceAllAux (cs.length - rest.length) cs
    | none => c :: replaceAllAux 0 cs

/-- The text `fq`: every non-overlapping match of the first expression deleted. -/
def replaceAll (s : List Char) : List Char := replaceAllAux 0 s

/-! ## `strings.SplitN(fq, "{", 3)` -/

/-- Go's `strings.SplitN` for a one-character separator. -/
def splitN (sep : Char) : Nat → List Char → List (List Char)
  | 0, _ => []
  | 1, s => [s]
  | n + 2, s =>
    match s.dropWhile (fun c => c != sep) with
    | [] => [s]
    | _ :: rest => s.takeWhile (fun c => c != sep) :: splitN sep (n + 1) rest

/-! ## The second expression: `([a-zA-Z_][a-zA-Z0-9_]*)` -/

/-- Leftmost match of `[a-zA-Z_][a-zA-Z0-9_]*`, the star greedy. -/
def findIdent : List Char → Option (List Char)
  | [] => none
  | c :: cs => if isIdentStart c then some (c :: cs.takeWhile isIdentChar) else findIdent cs

/-- The result of `rp2.FindStringSubmatch`: the whole match and the one capture group,
or nil when there is no match. -/
def findStringSubmatch (s : List Char) : List (List Char) :=
  match findIdent s with
  | some m => [m, m]
  | none => []

/-- The method `query.root` on the characters of the operation text. -/
def rootChars (q : List Char) : List Char :=
  let fq := replaceAll q
  let results := splitN '{' 3 fq
  if results.length = 3 then
    let found := findStringSubmatch (results.getD 1 [])
    if found.length > 1 then found.getD 0 [] else []
  else []

/-- The method `query.root`. -/
def query.root (q : String) : String := String.mk (rootChars q.data)

/-! ## JSON values, `gjson` lookups and `encoding/json` -/

/-- A parsed JSON document. Numbers are integers here: no claim looks at fractions. -/
inductive Json where
  | null
  | bool (b : Bool)
  | num (n : Int)
  | str (s : String)
  | arr (items : List Json)
  | obj (members : List (String × Json))

/-- The function `gjson.Get` (and `gjson.GetBytes`) for a path that is a plain key, as are
`data`, `errors`, `error` and every result of `query.root` (characters of `[a-zA-Z0-9_]`
only, or empty): the first member of an object with that key; nothing exists under a
key in a value that is not an object. `none` stands for a result whose `Exists()` is
false and whose `Raw` is empty. -/
def gjsonGet (json : Json) (path : String) : Option Json :=
  match json with
  | Json.obj members => members.lookup path
  | _ => none

/-- The test `res.Exists() && res.Type != gjson.Null`. -/
def existsNotNull (res : Option Json) : Bool :=
  match res with
  | none => false
  | some Json.null => false
  | some _ => true

/-- A non-nil Go `error`; the interface type `error` is `Option GoError`, nil is `none`. -/
structure GoError where
  msg : String

/-- The Go type behind the pointer passed as `response`: how `json.Unmarshal` decodes a
valid JSON text into a value of that type, giving the value left behind and the error. -/
structure Container (σ : Type) where
  unmarshal : Json → σ → σ × Option GoError

/-- The function `json.Unmarshal(content, response)`. `content` is `none` for the empty
byte slice (`Raw` of a result that does not exist): the syntax check fails before the
target is touched. -/
def jsonUnmarshal {σ : Type} (C : Container σ) (content : Option Json) (target : σ) :
    σ × Option GoError :=
  match content with
  | none => (target, some ⟨"unexpected end of JSON input"⟩)
  | some j => C.unmarshal j target

/-- The container `*interface{}`: it accepts every JSON value and holds it afterwards;
`none` is the nil interface value. -/
def anyContainer : Container (Option Json) where
  unmarshal := fun j _ => (some j, none)

/-! ## `errors.go` -/

/-- The function `newRequestError`: its body is `return nil`. -/
def newRequestError {α : Type} (_errs : α) : Option GoError := none

/-! ## `repository.go` -/

/-- A Go `map[string]string` that is not nil: finitely many entries, keys unique. -/
abbrev HeaderMap := AList (fun _ : String => String)

/-- The loop `for k, v := range src { dst[k] = v }`; a nil `src` has no entries. Keys are
unique, so the order in which Go visits the entries does not matter. -/
def setAll (dst : HeaderMap) (src : Option HeaderMap) : HeaderMap :=
  match src with
  | none => dst
  | some m => m.entries.foldl (fun acc e => acc.insert e.1 e.2) dst

/-- A `*resty.Client`. -/
structure Client where
  id : Nat

/-- The client made by `resty.New()`. -/
def restyNew : Client := ⟨0⟩

/-- The struct `Repository`; a nil client or a nil map is `none`. -/
structure Repository where
  endpoint : String
  client : Option Client
  headers : Option HeaderMap

/-- The type `RepositoryOption`. -/
abbrev RepositoryOption := Repository → Repository

/-- The option `WithClient`. -/
def WithClient (c : Client) : RepositoryOption :=
  fun r => { r with client := some c }

/-- The option `WithGlobalHeaders`. -/
def WithGlobalHeaders (headers : Option HeaderMap) : RepositoryOption :=
  fun r => { r with headers := headers }

/-- The constructor `NewRepository`. -/
def NewRepository (endpoint : String) (opts : List RepositoryOption) : Repository :=
  let r : Repository := { endpoint := endpoint, client := none, headers := none }
  let r := opts.foldl (fun r opt => opt r) r
  let r := if r.client.isNone then { r with client := some restyNew } else r
  let r := if r.headers.isNone then { r with headers := some ∅ } else r
  { r with headers := r.headers.map (fun h => h.insert "Content-Type" "application/json") }

/-- The struct `call` (`vars` is its field `variables`). -/
structure call where
  query : String
  vars : Option Json
  headers : Option HeaderMap

/-- The type `callOption`. -/
abbrev callOption := call → call

/-- The option `WithVariables`. -/
def WithVariables (vars : Option Json) : callOption :=
  fun c => { c with vars := vars }

/-- The option `WithRequestHeader`. -/
def WithRequestHeader (headers : Option HeaderMap) : callOption :=
  fun c =>
    let own := match c.headers with
      | none => ∅
      | some h => h
    { c with headers := some (setAll own headers) }

/-- The struct `graphQLRequest`. -/
structure graphQLRequest where
  Query : String
  Variables : Option Json

/-- The function `validHeaderFieldByte` of `net/textproto`: the token characters of
RFC 7230, letters, digits and ``!#$%&'*+-.^_`|~``. -/
def validHeaderFieldByte (c : Char) : Bool :=
  isAlnum c ||
    [33, 35, 36, 37, 38, 39, 42, 43, 45, 46, 94, 95, 96, 124, 126].contains c.toNat

/-- The loop of `canonicalMIMEHeaderKey`: upper case for the first letter and for a
letter after a dash, lower case for every other letter. -/
def canonicalBytes : Bool → List Char → List Char
  | _, [] => []
  | upper, c :: cs =>
    let d :=
      if upper && (97 ≤ c.toNat && c.toNat ≤ 122) then Char.ofNat (c.toNat - 32)
      else if !upper && (65 ≤ c.toNat && c.toNat ≤ 90) then Char.ofNat (c.toNat + 32)
      else c
    d :: canonicalBytes (d == '-') cs

/-- The function `textproto.CanonicalMIMEHeaderKey`: a name with a character that is no
token character is returned as it is, any other name in canonical form. -/
def CanonicalMIMEHeaderKey (s : String) : String :=
  if s.data.all validHeaderFieldByte then String.mk (canonicalBytes true s.data) else s

/-- A `*resty.Request` as far as this package fills it: header set and body. The header
set is an `http.Header`; `Set` leaves one value under a name. -/
structure Request where
  Header : HeaderMap
  Body : Option graphQLRequest

/-- The request made by `client.R()`: no header, no body, whatever the client. -/
def Client.R (_client : Option Client) : Request := { Header := ∅, Body := none }

/-- The method `SetHeader` of `resty.Request`: `r.Header.Set(header, value)`, which
stores the value under the canonical form of the name. -/
def Request.SetHeader (req : Request) (header value : String) : Request :=
  { req with Header := req.Header.insert (CanonicalMIMEHeaderKey header) value }

/-- The method `SetHeaders` of `resty.Request`: `SetHeader` for every entry of the map,
here in the order of the entries. Go leaves the order open; it matters only when two
names of the map have the same canonical form. -/
def Request.SetHeaders (req : Request) (headers : Option HeaderMap) : Request :=
  match headers with
  | none => req
  | some m => m.entries.foldl (fun acc e => acc.SetHeader e.1 e.2) req

/-- The method `SetBody` of `resty.Request`. -/
def Request.SetBody (req : Request) (body : graphQLRequest) : Request :=
  { req with Body := some body }

/-- The method `call.toRequest` (the context is carried along unchanged and left out). -/
def call.toRequest (c : call) (client : Option Client) (globalHeaders : Option HeaderMap) :
    Request :=
  (((Client.R client).SetHeaders globalHeaders).SetHeaders c.headers).SetBody
    { Query := c.query, Variables := c.vars }

/-- What `req.Post` hands back: the response body and the transport error. -/
structure Response where
  Body : Json

/-- The HTTP executor behind `req.Post(endpoint)`. -/
abbrev Transport := Request → String → Response × Option GoError

/-- The first statements of `Repository.request`: apply the call options in order and
build the request. -/
def Repository.buildRequest (r : Repository) (q : String) (opts : List callOption) : Request :=
  let c : call := { query := q, vars := none, headers := none }
  let c := opts.foldl (fun c opt => opt c) c
  c.toRequest r.client r.headers

/-- The method `Repository.request`. The result pairs the returned `error` with the
state of the caller's container afterwards (`response`, `none` when nil was passed).
The errors of both `json.Unmarshal` calls are dropped by the code, as are the decoded
`actualError` slice and the argument of `newRequestError`. -/
def Repository.request {σ : Type} (r : Repository) (post : Transport) (C : Container σ)
    (q : String) (response : Option σ) (opts : List callOption) :
    Option GoError × Option σ :=
  let req := r.buildRequest q opts
  let (res, err) := post req r.endpoint
  let body := res.Body
  let resdata := gjsonGet body "data"
  let reserrs := gjsonGet body "errors"
  let reserr := gjsonGet body "error"
  if existsNotNull resdata then
    match response with
    | some target =>
      let root := query.root q
      let content := resdata.bind (fun d => gjsonGet d root)
      let (filled, _) := jsonUnmarshal C content target
      (none, some filled)
    | none => (none, none)
  else if reserrs.isSome then
    (none, response)
  else if reserr.isSome then
    (newRequestError reserr, response)
  else
    (err, response)

/-- The method `Repository.Query`. -/
def Repository.Query {σ : Type} (r : Repository) (post : Transport) (C : Container σ)
    (q : String) (response : Option σ) (opts : List callOption) :
    Option GoError × Option σ :=
  r.request post C q response opts

/-- The method `Repository.Mutate`. -/
def Repository.Mutate {σ : Type} (r : Repository) (post : Transport) (C : Container σ)
    (mu : String) (response : Option σ) (opts : List callOption) :
    Option GoError × Option σ :=
  r.request post C mu response opts

/-! ## Definitions used to state the claims -/

/-- The words "leftmost, longest match of `[a-zA-Z_][a-zA-Z0-9_]*` in `seg`": nothing
before the match can start a match, the match has the shape of the expression, and the
character after it, if any, cannot extend it. -/
def IsLeftmostLongestIdent (seg m : List Char) : Prop :=
  ∃ pre post, seg = pre ++ m ++ post ∧ (∀ c ∈ pre, isIdentStart c = false) ∧
    (∃ c t, m = c :: t ∧ isIdentStart c = true ∧ ∀ d ∈ t, isIdentChar d = true) ∧
    (∀ d, post.head? = some d → isIdentChar d = false)

/-- The shape `[a-zA-Z_][a-zA-Z0-9_]*`. -/
def IsIdentifier (f : List Char) : Prop :=
  ∃ c t, f = c :: t ∧ isIdentStart c = true ∧ ∀ d ∈ t, isIdentChar d = true

/-- The envelope `{"data":{"root":{"id":5}},"errors":[{"message":"x"}],"error":"boom"}`. -/
def envelopeWithData : Json :=
  Json.obj [("data", Json.obj [("root", Json.obj [("id", Json.num 5)])]),
    ("errors", Json.arr [Json.obj [("message", Json.str "x")]]),
    ("error", Json.str "boom")]

/-- The container `*int`: it accepts a JSON number and is left untouched by any other
value, for which `json.Unmarshal` reports a type error. -/
def intContainer : Container Int where
  unmarshal := fun j target =>
    match j with
    | Json.num n => (n, none)
    | _ => (target, some ⟨"json: cannot unmarshal value into Go value of type int"⟩)

/-- The envelope
`{"data":null,"errors":[{"message":"x","extensions":{"error":{"error_code":"BAD","status_code":422,"metadata":{"f":"v"}}}}]}`. -/
def envelopeStructuredError : Json :=
  Json.obj [("data", Json.null),
    ("errors", Json.arr [Json.obj [("message", Json.str "x"),
      ("extensions", Json.obj [("error", Json.obj [("error_code", Json.str "BAD"),
        ("status_code", Json.num 422),
        ("metadata", Json.obj [("f", Json.str "v")])])])]])]

/-- The first of two optional values that is present. -/
def firstSome (a b : Option String) : Option String :=
  match a with
  | some v => some v
  | none => b

/-- The value `m[k]` of a map that may be nil. -/
def getHeader (m : Option HeaderMap) (k : String) : Option String :=
  match m with
  | none => none
  | some h => h.lookup k

/-- The words "merged left to right into P, later values winning": the value of `k` in
the last of the per-call maps that has the key. -/
def perCallValue : List (Option HeaderMap) → String → Option String
  | [], _ => none
  | h :: hs, k => firstSome (perCallValue hs k) (getHeader h k)

/-- The precedence as the claim words it: per-call, then global, then the default
content type. -/
def claimedHeader (G : Option HeaderMap) (hs : List (Option HeaderMap)) (k : String) :
    Option String :=
  firstSome (perCallValue hs k)
    (firstSome (getHeader G k)
      (if k = "Content-Type" then some "application/json" else none))

/-- The keys of a map that may be nil. -/
def keysOf (m : Option HeaderMap) : List String :=
  match m with
  | none => []
  | some h => h.keys

/-- The keys of the per-call maps, that is, of the map P they are merged into. -/
def perCallKeys : List (Option HeaderMap) → List String
  | [] => []
  | h :: hs => keysOf h ++ perCallKeys hs

/-- No two of the names have the same canonical form. -/
abbrev NoClash (keys : List String) : Prop :=
  ∀ k₁ ∈ keys, ∀ k₂ ∈ keys, CanonicalMIMEHeaderKey k₁ = CanonicalMIMEHeaderKey k₂ → k₁ = k₂

/-- The value a map (given by its keys and its values) holds for the key whose canonical
form is `K`, if it has such a key. -/
def canonicalValue (value : String → Option String) (keys : List String) (K : String) :
    Option String :=
  match keys.find? (fun k => CanonicalMIMEHeaderKey k = K) with
  | some k => value k
  | none => none

/-- The precedence the code has, on canonical names: per-call, then the content type
written by `NewRepository` over the global map, then the other global entries. -/
def sentHeader (G : Option HeaderMap) (hs : List (Option HeaderMap)) (K : String) :
    Option String :=
  firstSome (canonicalValue (perCallValue hs) (perCallKeys hs) K)
    (if K = "Content-Type" then some "application/json"
      else canonicalValue (getHeader G) (keysOf G) K)

/-- The global map `{"Content-Type":"text/plain"}`. -/
def plainTextGlobal : HeaderMap := AList.singleton "Content-Type" "text/plain"

/-! ## Basic facts about the scanner and the splitter -/

theorem replaceAllAux_sublist (s : List Char) : ∀ k, (replaceAllAux k s).Sublist s := by
  induction s with
  | nil => intro k; cases k <;> simp [replaceAllAux]
  | cons c cs ih =>
    intro k
    cases k with
    | zero =>
      simp only [replaceAllAux]
      split
      · exact (ih _).cons _
      · exact (ih 0).cons₂ _
    | succ k =>
      simp only [replaceAllAux]
      exact (ih k).cons _

theorem count_replaceAll_le (c : Char) (s : List Char) :
    (replaceAll s).count c ≤ s.count c :=
  (replaceAllAux_sublist s 0).count_le c

theorem count_of_dropWhile_ne (sep x : Char) (rest : List Char) :
    ∀ s : List Char, s.dropWhile (fun c => c != sep) = x :: rest →
      x = sep ∧ s.count sep = rest.count sep + 1 := by
  intro s
  induction s with
  | nil => intro h; simp at h
  | cons c cs ih =>
    intro h
    by_cases hc : c = sep
    · subst hc
      simp at h
      obtain ⟨h1, h2⟩ := h
      subst h1; subst h2
      simp
    · have hne : (c != sep) = true := by simp [hc]
      simp only [List.dropWhile_cons, hne, if_true] at h
      obtain ⟨h1, h2⟩ := ih h
      refine ⟨h1, ?_⟩
      rw [List.count_cons_of_ne (Ne.symm hc), h2]

theorem splitN_three_length (sep : Char) (s : List Char)
    (h : (splitN sep 3 s).length = 3) : 2 ≤ s.count sep := by
  unfold splitN at h
  split at h
  · simp at h
  · rename_i x rest hd
    obtain ⟨-, hcnt⟩ := count_of_dropWhile_ne sep x rest s hd
    unfold splitN at h
    split at h
    · simp at h
    · rename_i y rest2 hd2
      obtain ⟨-, hcnt2⟩ := count_of_dropWhile_ne sep y rest2 rest hd2
      omega

theorem rootChars_of_fewer_than_two_braces (q : List Char) (h : q.count '{' < 2) :
    rootChars q = [] := by
  unfold rootChars
  have hlen : (splitN '{' 3 (replaceAll q)).length ≠ 3 := by
    intro h3
    have := splitN_three_length _ _ h3
    have := count_replaceAll_le '{' q
    omega
  simp [hlen]

/-! ## Texts without a keyword -/

theorem dropLiteral_eq_some (k : List Char) :
    ∀ (t r : List Char), dropLiteral k t = some r → t = k ++ r := by
  induction k with
  | nil => intro t r h; simp [dropLiteral] at h; simp [h]
  | cons a ks ih =>
    intro t r h
    cases t with
    | nil => simp [dropLiteral] at h
    | cons c cs =>
      simp only [dropLiteral] at h
      split at h
      · rename_i hac
        subst hac
        rw [ih cs r h]
        rfl
      · simp at h

theorem matchKeyword_eq_some (t r : List Char) (h : matchKeyword t = some r) :
    t = kwQuery ++ r ∨ t = kwMutation ++ r ∨ t = kwSubscription ++ r := by
  unfold matchKeyword at h
  split at h
  · rename_i r1 h1
    simp at h; subst h
    exact Or.inl (dropLiteral_eq_some _ _ _ h1)
  · split at h
    · rename_i r2 h2
      simp at h; subst h
      exact Or.inr (Or.inl (dropLiteral_eq_some _ _ _ h2))
    · exact Or.inr (Or.inr (dropLiteral_eq_some _ _ _ h))

theorem matchKeyword_none_of_no_prefix (t : List Char) (hq : ¬ kwQuery <+: t)
    (hm : ¬ kwMutation <+: t) (hs : ¬ kwSubscription <+: t) : matchKeyword t = none := by
  cases h : matchKeyword t with
  | none => rfl
  | some r =>
    rcases matchKeyword_eq_some t r h with h1 | h1 | h1
    · exact absurd ⟨r, h1.symm⟩ hq
    · exact absurd ⟨r, h1.symm⟩ hm
    · exact absurd ⟨r, h1.symm⟩ hs

theorem matchOperation_none_of_keyword_none (t : List Char) (h : matchKeyword t = none) :
    matchOperation t = none := by
  simp [matchOperation, h]

theorem not_infix_tail (k : List Char) (c : Char) (cs : List Char)
    (h : ¬ k <:+: c :: cs) : ¬ k <:+: cs :=
  fun h1 => h (h1.trans (List.suffix_cons c cs).isInfix)

theorem replaceAllAux_of_no_keyword (s : List Char) (hq : ¬ kwQuery <:+: s)
    (hm : ¬ kwMutation <:+: s) (hs : ¬ kwSubscription <:+: s) : replaceAllAux 0 s = s := by
  induction s with
  | nil => simp [replaceAllAux]
  | cons c cs ih =>
    have hk : matchKeyword (c :: cs) = none :=
      matchKeyword_none_of_no_prefix _ (fun h => hq h.isInfix) (fun h => hm h.isInfix)
        (fun h => hs h.isInfix)
    simp only [replaceAllAux, matchOperation_none_of_keyword_none _ hk]
    rw [ih (not_infix_tail _ _ _ hq) (not_infix_tail _ _ _ hm) (not_infix_tail _ _ _ hs)]

/-! ## The splitter on a text with two opening braces -/

theorem takeWhile_ne_append (sep : Char) (X : List Char) :
    ∀ a : List Char, sep ∉ a → (a ++ sep :: X).takeWhile (fun c => c != sep) = a := by
  intro a
  induction a with
  | nil => intro _; simp
  | cons c cs ih =>
    intro h
    simp only [List.mem_cons, not_or] at h
    have hne : (c != sep) = true := by simp [Ne.symm h.1]
    simp only [List.cons_append, List.takeWhile_cons, hne, if_true, ih h.2]

theorem dropWhile_ne_append (sep : Char) (X : List Char) :
    ∀ a : List Char, sep ∉ a → (a ++ sep :: X).dropWhile (fun c => c != sep) = sep :: X := by
  intro a
  induction a with
  | nil => intro _; simp
  | cons c cs ih =>
    intro h
    simp only [List.mem_cons, not_or] at h
    have hne : (c != sep) = true := by simp [Ne.symm h.1]
    simp only [List.cons_append, List.dropWhile_cons, hne, if_true, ih h.2]

theorem splitN_three (sep : Char) (a seg rest : List Char) (ha : sep ∉ a) (hseg : sep ∉ seg) :
    splitN sep 3 (a ++ sep :: (seg ++ sep :: rest)) = [a, seg, rest] := by
  simp only [splitN, dropWhile_ne_append sep _ a ha, takeWhile_ne_append sep _ a ha,
    dropWhile_ne_append sep _ seg hseg, takeWhile_ne_append sep _ seg hseg]

theorem exists_two_braces (sep : Char) (s : List Char) (h : 2 ≤ s.count sep) :
    ∃ a seg rest, s = a ++ sep :: (seg ++ sep :: rest) ∧ sep ∉ a ∧ sep ∉ seg := by
  have h1 : sep ∈ s := List.count_pos_iff.mp (by omega)
  obtain ⟨a, r, hs, ha⟩ := List.eq_append_cons_of_mem h1
  have hc : s.count sep = r.count sep + 1 := by
    rw [hs, List.count_append, List.count_eq_zero_of_not_mem ha]
    simp
  have h2 : sep ∈ r := List.count_pos_iff.mp (by omega)
  obtain ⟨seg, rest, hr, hseg⟩ := List.eq_append_cons_of_mem h2
  exact ⟨a, seg, rest, by rw [hs, hr], ha, hseg⟩

/-! ## The identifier search -/

theorem head_dropWhile_false (p : Char → Bool) :
    ∀ (s : List Char) (d : Char), (s.dropWhile p).head? = some d → p d = false := by
  intro s
  induction s with
  | nil => intro d h; simp at h
  | cons c cs ih =>
    intro d h
    by_cases hc : p c = true
    · simp only [List.dropWhile_cons, hc, if_true] at h
      exact ih d h
    · simp only [List.dropWhile_cons, hc] at h
      simp at h
      subst h
      simpa using hc

theorem findIdent_sound :
    ∀ (seg m : List Char), findIdent seg = some m → IsLeftmostLongestIdent seg m := by
  intro seg
  induction seg with
  | nil => intro m h; simp [findIdent] at h
  | cons c cs ih =>
    intro m h
    simp only [findIdent] at h
    split at h
    · rename_i hc
      simp at h
      subst h
      refine ⟨[], cs.dropWhile isIdentChar, ?_, by simp, ⟨c, _, rfl, hc, ?_⟩, ?_⟩
      · simp [List.takeWhile_append_dropWhile]
      · intro d hd
        exact (List.mem_takeWhile_imp hd)
      · exact head_dropWhile_false _ cs
    · rename_i hc
      obtain ⟨pre, post, h1, h2, h3, h4⟩ := ih m h
      refine ⟨c :: pre, post, by simp [h1], ?_, h3, h4⟩
      intro d hd
      rcases List.mem_cons.mp hd with hd | hd
      · subst hd; simpa using hc
      · exact h2 d hd

theorem findIdent_eq_none (seg : List Char) :
    findIdent seg = none ↔ ∀ c ∈ seg, isIdentStart c = false := by
  induction seg with
  | nil => simp [findIdent]
  | cons c cs ih =>
    simp only [findIdent]
    split
    · rename_i hc
      simp [hc]
    · rename_i hc
      simp [ih, hc]

theorem rootChars_of_split (q a seg rest : List Char)
    (h : replaceAll q = a ++ '{' :: (seg ++ '{' :: rest)) (ha : '{' ∉ a) (hseg : '{' ∉ seg) :
    rootChars q = (findIdent seg).getD [] := by
  unfold rootChars
  simp only [h, splitN_three '{' a seg rest ha hseg, findStringSubmatch]
  cases hf : findIdent seg <;> simp [hf]

/-! ## One match of the first expression consumes a non-empty prefix -/

theorem dropWhile_suffix (p : Char → Bool) (s : List Char) :
    ∃ m, s = m ++ s.dropWhile p :=
  ⟨s.takeWhile p, (List.takeWhile_append_dropWhile p s).symm⟩

theorem dotStarClose_suffix :
    ∀ (s r : List Char), dotStarClose s = some r → ∃ m, s = m ++ r := by
  intro s
  induction s with
  | nil => intro r h; simp [dotStarClose] at h
  | cons c cs ih =>
    intro r h
    simp only [dotStarClose] at h
    split at h
    · simp at h
    · split at h
      · rename_i r' hr'
        simp at h
        subst h
        obtain ⟨m, hm⟩ := ih r' hr'
        exact ⟨c :: m, by rw [hm]; rfl⟩
      · split at h
        · simp at h
          subst h
          exact ⟨[c], rfl⟩
        · simp at h

theorem dotPlusClose_suffix (s r : List Char) (h : dotPlusClose s = some r) :
    ∃ m, s = m ++ r := by
  cases s with
  | nil => simp [dotPlusClose] at h
  | cons c cs =>
    simp only [dotPlusClose] at h
    split at h
    · simp at h
    · obtain ⟨m, hm⟩ := dotStarClose_suffix cs r h
      exact ⟨c :: m, by rw [hm]; rfl⟩

theorem matchVarDefs_suffix (s : List Char) : ∃ m, s = m ++ matchVarDefs s := by
  unfold matchVarDefs
  split
  · rename_i t
    split
    · rename_i r hr
      obtain ⟨m, hm⟩ := dotPlusClose_suffix t r hr
      obtain ⟨m', hm'⟩ := dropWhile_suffix isSpace r
      refine ⟨'(' :: (m ++ m'), ?_⟩
      rw [hm]
      nth_rewrite 1 [hm']
      simp
    · exact ⟨[], rfl⟩
  · exact ⟨[], rfl⟩

theorem matchOperation_suffix (s rest : List Char) (h : matchOperation s = some rest) :
    ∃ c m, s = c :: (m ++ rest) := by
  unfold matchOperation at h
  split at h
  · simp at h
  · rename_i r₁ hk
    simp only [Option.some.injEq] at h
    obtain ⟨m₂, h₂⟩ := dropWhile_suffix isSpace r₁
    obtain ⟨m₃, h₃⟩ := dropWhile_suffix isAlnum (r₁.dropWhile isSpace)
    obtain ⟨m₄, h₄⟩ := dropWhile_suffix isSpace ((r₁.dropWhile isSpace).dropWhile isAlnum)
    obtain ⟨m₅, h₅⟩ := matchVarDefs_suffix
      (((r₁.dropWhile isSpace).dropWhile isAlnum).dropWhile isSpace)
    rw [h] at h₅
    have hr : r₁ = (m₂ ++ m₃ ++ m₄ ++ m₅) ++ rest := by
      rw [h₂, h₃, h₄]
      nth_rewrite 1 [h₅]
      simp
    rcases matchKeyword_eq_some s r₁ hk with hs | hs | hs
    · exact ⟨'q', ['u', 'e', 'r', 'y'] ++ (m₂ ++ m₃ ++ m₄ ++ m₅), by
        rw [hs, hr]; simp [kwQuery]⟩
    · exact ⟨'m', ['u', 't', 'a', 't', 'i', 'o', 'n'] ++ (m₂ ++ m₃ ++ m₄ ++ m₅), by
        rw [hs, hr]; simp [kwMutation]⟩
    · exact ⟨'s', ['u', 'b', 's', 'c', 'r', 'i', 'p', 't', 'i', 'o', 'n'] ++
        (m₂ ++ m₃ ++ m₄ ++ m₅), by rw [hs, hr]; simp [kwSubscription]⟩

theorem replaceAllAux_skip (rest : List Char) :
    ∀ m : List Char, replaceAllAux m.length (m ++ rest) = replaceAllAux 0 rest := by
  intro m
  induction m with
  | nil => rfl
  | cons c cs ih => simpa [replaceAllAux] using ih

/-- A match at the head of the text is deleted and the scan goes on behind it. -/
theorem replaceAllAux_of_match (s rest : List Char) (h : matchOperation s = some rest) :
    replaceAllAux 0 s = replaceAllAux 0 rest := by
  obtain ⟨c, m, hs⟩ := matchOperation_suffix s rest h
  subst hs
  simp only [replaceAllAux, h]
  have hlen : (m ++ rest).length - rest.length = m.length := by simp
  rw [hlen, replaceAllAux_skip]

/-- Where no match starts, the character is copied. -/
theorem replaceAllAux_of_no_match (c : Char) (cs : List Char)
    (h : matchKeyword (c :: cs) = none) :
    replaceAllAux 0 (c :: cs) = c :: replaceAllAux 0 cs := by
  simp only [replaceAllAux, matchOperation_none_of_keyword_none _ h]

/-! ## Character facts -/

theorem isSpace_cases (c : Char) (h : isSpace c = true) :
    c = '\t' ∨ c = '\n' ∨ c = '\x0c' ∨ c = '\r' ∨ c = ' ' := by
  simpa [isSpace, or_assoc] using h

theorem isSpace_not_letter (c : Char) (h : isSpace c = true) : isLetter c = false := by
  rcases isSpace_cases c h with h | h | h | h | h <;> subst h <;> decide

theorem isSpace_not_alnum (c : Char) (h : isSpace c = true) : isAlnum c = false := by
  rcases isSpace_cases c h with h | h | h | h | h <;> subst h <;> decide

theorem isSpace_not_identStart (c : Char) (h : isSpace c = true) : isIdentStart c = false := by
  rcases isSpace_cases c h with h | h | h | h | h <;> subst h <;> decide

theorem isSpace_not_identChar (c : Char) (h : isSpace c = true) : isIdentChar c = false := by
  rcases isSpace_cases c h with h | h | h | h | h <;> subst h <;> decide

theorem isSpace_ne_brace (c : Char) (h : isSpace c = true) : c ≠ '{' := by
  rcases isSpace_cases c h with h | h | h | h | h <;> subst h <;> decide

theorem isIdentChar_ne_brace (c : Char) (h : isIdentChar c = true) : c ≠ '{' := by
  intro hc
  subst hc
  exact absurd h (by decide)

theorem isAlnum_not_space (c : Char) (h : isAlnum c = true) : isSpace c = false := by
  cases hs : isSpace c with
  | false => rfl
  | true => rw [isSpace_not_alnum c hs] at h; exact absurd h (by decide)

/-! ## `dropWhile`, `takeWhile` and the identifier search on composed texts -/

theorem dropWhile_append_all (p : Char → Bool) (Y : List Char) :
    ∀ w : List Char, (∀ c ∈ w, p c = true) → (w ++ Y).dropWhile p = Y.dropWhile p := by
  intro w
  induction w with
  | nil => intro _; rfl
  | cons c cs ih =>
    intro h
    have hc : p c = true := h c (List.mem_cons_self _ _)
    simp only [List.cons_append, List.dropWhile_cons, hc, if_true]
    exact ih (fun d hd => h d (List.mem_cons_of_mem _ hd))

theorem dropWhile_of_head (p : Char → Bool) (Y : List Char)
    (hY : ∀ d, Y.head? = some d → p d = false) : Y.dropWhile p = Y := by
  cases Y with
  | nil => rfl
  | cons d ds =>
    have hd : p d = false := hY d rfl
    simp [List.dropWhile_cons, hd]

theorem dropWhile_all_then (p : Char → Bool) (w Y : List Char) (hw : ∀ c ∈ w, p c = true)
    (hY : ∀ d, Y.head? = some d → p d = false) : (w ++ Y).dropWhile p = Y := by
  rw [dropWhile_append_all p Y w hw, dropWhile_of_head p Y hY]

theorem takeWhile_all_then (p : Char → Bool) (Y : List Char)
    (hY : ∀ d, Y.head? = some d → p d = false) :
    ∀ w : List Char, (∀ c ∈ w, p c = true) → (w ++ Y).takeWhile p = w := by
  intro w
  induction w with
  | nil =>
    intro _
    cases Y with
    | nil => rfl
    | cons d ds =>
      have hd : p d = false := hY d rfl
      simp [List.takeWhile_cons, hd]
  | cons c cs ih =>
    intro h
    have hc : p c = true := h c (List.mem_cons_self _ _)
    simp only [List.cons_append, List.takeWhile_cons, hc, if_true]
    rw [ih (fun d hd => h d (List.mem_cons_of_mem _ hd))]

theorem findIdent_append_skip (Y : List Char) :
    ∀ w : List Char, (∀ c ∈ w, isIdentStart c = false) → findIdent (w ++ Y) = findIdent Y := by
  intro w
  induction w with
  | nil => intro _; rfl
  | cons c cs ih =>
    intro h
    have hc : isIdentStart c = false := h c (List.mem_cons_self _ _)
    simp only [List.cons_append, findIdent, hc]
    exact ih (fun d hd => h d (List.mem_cons_of_mem _ hd))

theorem findIdent_between_spaces (w₁ f w₂ : List Char) (hw₁ : ∀ c ∈ w₁, isSpace c = true)
    (hf : IsIdentifier f) (hw₂ : ∀ c ∈ w₂, isSpace c = true) :
    findIdent (w₁ ++ f ++ w₂) = some f := by
  obtain ⟨c, t, hft, hc, ht⟩ := hf
  subst hft
  rw [List.append_assoc,
    findIdent_append_skip _ w₁ (fun d hd => isSpace_not_identStart d (hw₁ d hd))]
  simp only [List.cons_append, findIdent, hc, if_true]
  show some (c :: List.takeWhile isIdentChar (t ++ w₂)) = some (c :: t)
  rw [takeWhile_all_then isIdentChar w₂ ?_ t ht]
  intro d hd
  cases w₂ with
  | nil => simp at hd
  | cons e es =>
    simp at hd
    subst hd
    exact isSpace_not_identChar e (hw₂ e (List.mem_cons_self _ _))

theorem isIdentStart_isIdentChar (c : Char) (h : isIdentStart c = true) :
    isIdentChar c = true := by
  simp only [isIdentStart, isIdentChar, isAlnum, Bool.or_eq_true] at h ⊢
  rcases h with h | h
  · exact Or.inl (Or.inl h)
  · exact Or.inr h

theorem brace_not_mem_segment (w₁ f w₂ : List Char) (hw₁ : ∀ c ∈ w₁, isSpace c = true)
    (hf : IsIdentifier f) (hw₂ : ∀ c ∈ w₂, isSpace c = true) : '{' ∉ w₁ ++ f ++ w₂ := by
  obtain ⟨c, t, hft, hc, ht⟩ := hf
  subst hft
  intro hmem
  simp only [List.mem_append, List.mem_cons] at hmem
  rcases hmem with (hmem | hmem | hmem) | hmem
  · exact isSpace_ne_brace _ (hw₁ _ hmem) rfl
  · subst hmem
    exact isIdentChar_ne_brace _ (isIdentStart_isIdentChar _ hc) rfl
  · exact isIdentChar_ne_brace _ (ht _ hmem) rfl
  · exact isSpace_ne_brace _ (hw₂ _ hmem) rfl

/-! ## Where a keyword cannot start -/

theorem matchKeyword_none_of_head (c : Char) (X : List Char) (hc : isLetter c = false) :
    matchKeyword (c :: X) = none := by
  cases h : matchKeyword (c :: X) with
  | none => rfl
  | some r =>
    exfalso
    rcases matchKeyword_eq_some _ r h with h1 | h1 | h1 <;>
      · simp only [kwQuery, kwMutation, kwSubscription, List.cons_append, List.cons.injEq] at h1
        rw [h1.1] at hc
        exact absurd hc (by decide)

theorem replaceAllAux_spaces (X : List Char) :
    ∀ w : List Char, (∀ c ∈ w, isSpace c = true) →
      replaceAllAux 0 (w ++ X) = w ++ replaceAllAux 0 X := by
  intro w
  induction w with
  | nil => intro _; rfl
  | cons c cs ih =>
    intro h
    have hc := isSpace_not_letter c (h c (List.mem_cons_self _ _))
    rw [List.cons_append, replaceAllAux_of_no_match c _ (matchKeyword_none_of_head c _ hc),
      ih (fun d hd => h d (List.mem_cons_of_mem _ hd))]
    rfl

theorem prefix_of_prefix_append (X : List Char)
    (hX : ∀ d, X.head? = some d → isLetter d = false) :
    ∀ (k t : List Char), (∀ c ∈ k, isLetter c = true) → k <+: t ++ X → k <+: t := by
  intro k
  induction k with
  | nil => intro t _ _; exact List.nil_prefix
  | cons a ks ih =>
    intro t hk hp
    have ha : isLetter a = true := hk a (List.mem_cons_self _ _)
    cases t with
    | nil =>
      exfalso
      cases X with
      | nil => simp at hp
      | cons d ds =>
        rw [List.nil_append, List.cons_prefix_cons] at hp
        have hd : isLetter d = false := hX d rfl
        rw [← hp.1, ha] at hd
        exact absurd hd (by decide)
    | cons c t' =>
      rw [List.cons_append, List.cons_prefix_cons] at hp
      rw [List.cons_prefix_cons]
      exact ⟨hp.1, ih t' (fun d hd => hk d (List.mem_cons_of_mem _ hd)) hp.2⟩

theorem replaceAllAux_ident (X : List Char)
    (hX : ∀ d, X.head? = some d → isLetter d = false) :
    ∀ t : List Char, ¬ kwQuery <:+: t → ¬ kwMutation <:+: t → ¬ kwSubscription <:+: t →
      replaceAllAux 0 (t ++ X) = t ++ replaceAllAux 0 X := by
  intro t
  induction t with
  | nil => intro _ _ _; rfl
  | cons c cs ih =>
    intro hq hm hs
    have hk : matchKeyword (c :: (cs ++ X)) = none := by
      rw [← List.cons_append]
      apply matchKeyword_none_of_no_prefix
      · intro hp
        exact hq (prefix_of_prefix_append X hX kwQuery (c :: cs) (by decide) hp).isInfix
      · intro hp
        exact hm (prefix_of_prefix_append X hX kwMutation (c :: cs) (by decide) hp).isInfix
      · intro hp
        exact hs (prefix_of_prefix_append X hX kwSubscription (c :: cs) (by decide) hp).isInfix
    rw [List.cons_append, replaceAllAux_of_no_match c _ hk,
      ih (not_infix_tail _ _ _ hq) (not_infix_tail _ _ _ hm) (not_infix_tail _ _ _ hs)]
    rfl

theorem head_spaces_brace_not_letter (w X : List Char) (hw : ∀ c ∈ w, isSpace c = true) :
    ∀ d, (w ++ '{' :: X).head? = some d → isLetter d = false := by
  intro d hd
  cases w with
  | nil =>
    simp at hd
    subst hd
    decide
  | cons e es =>
    simp at hd
    subst hd
    exact isSpace_not_letter e (hw e (List.mem_cons_self _ _))

/-- The text from the opening brace of the operation to the brace after the root field is
copied by the scan when the root field holds no keyword. -/
theorem replaceAllAux_braced (w₁ f w₂ rest : List Char) (hw₁ : ∀ c ∈ w₁, isSpace c = true)
    (hw₂ : ∀ c ∈ w₂, isSpace c = true) (hq : ¬ kwQuery <:+: f) (hm : ¬ kwMutation <:+: f)
    (hs : ¬ kwSubscription <:+: f) :
    replaceAllAux 0 ('{' :: (w₁ ++ f ++ w₂ ++ '{' :: rest)) =
      [] ++ '{' :: ((w₁ ++ f ++ w₂) ++ '{' :: replaceAllAux 0 rest) := by
  have hb : ∀ X : List Char, replaceAllAux 0 ('{' :: X) = '{' :: replaceAllAux 0 X :=
    fun X => replaceAllAux_of_no_match '{' X (matchKeyword_none_of_head '{' X (by decide))
  rw [hb, List.append_assoc, List.append_assoc, replaceAllAux_spaces _ w₁ hw₁,
    replaceAllAux_ident _ (head_spaces_brace_not_letter w₂ rest hw₂) f hq hm hs,
    replaceAllAux_spaces _ w₂ hw₂, hb]
  simp

theorem rootChars_of_stripped (s w₁ f w₂ rest : List Char)
    (h : replaceAllAux 0 s = replaceAllAux 0 ('{' :: (w₁ ++ f ++ w₂ ++ '{' :: rest)))
    (hw₁ : ∀ c ∈ w₁, isSpace c = true) (hf : IsIdentifier f)
    (hw₂ : ∀ c ∈ w₂, isSpace c = true) (hq : ¬ kwQuery <:+: f) (hm : ¬ kwMutation <:+: f)
    (hs : ¬ kwSubscription <:+: f) : rootChars s = f := by
  have h1 : replaceAll s = [] ++ '{' :: ((w₁ ++ f ++ w₂) ++ '{' :: replaceAllAux 0 rest) := by
    unfold replaceAll
    rw [h, replaceAllAux_braced w₁ f w₂ rest hw₁ hw₂ hq hm hs]
  rw [rootChars_of_split s [] (w₁ ++ f ++ w₂) _ h1 (by simp)
    (brace_not_mem_segment w₁ f w₂ hw₁ hf hw₂), findIdent_between_spaces w₁ f w₂ hw₁ hf hw₂]
  rfl

/-! ## The match at the head of an operation -/

theorem matchKeyword_query (Y : List Char) : matchKeyword (kwQuery ++ Y) = some Y := by
  simp [matchKeyword, dropLiteral, kwQuery]

theorem matchKeyword_mutation (Y : List Char) : matchKeyword (kwMutation ++ Y) = some Y := by
  simp [matchKeyword, dropLiteral, kwQuery, kwMutation]

theorem matchVarDefs_brace (Z : List Char) : matchVarDefs ('{' :: Z) = '{' :: Z := by
  simp [matchVarDefs]

theorem head_brace_not (p : Char → Bool) (hp : p '{' = false) (Z : List Char) :
    ∀ d, ('{' :: Z).head? = some d → p d = false := by
  intro d hd
  simp at hd
  subst hd
  exact hp

theorem matchOperation_mutation (w₀ Z : List Char) (hw₀ : ∀ c ∈ w₀, isSpace c = true) :
    matchOperation (kwMutation ++ (w₀ ++ '{' :: Z)) = some ('{' :: Z) := by
  simp only [matchOperation, matchKeyword_mutation]
  rw [dropWhile_all_then isSpace w₀ _ hw₀ (head_brace_not isSpace (by decide) Z),
    dropWhile_of_head isAlnum _ (head_brace_not isAlnum (by decide) Z),
    dropWhile_of_head isSpace _ (head_brace_not isSpace (by decide) Z), matchVarDefs_brace]

theorem dotStarClose_none_of_line :
    ∀ T : List Char, ')' ∉ T.takeWhile (fun c => c != '\n') → dotStarClose T = none := by
  intro T
  induction T with
  | nil => intro _; rfl
  | cons c cs ih =>
    intro h
    by_cases hc : c = '\n'
    · simp [dotStarClose, hc]
    · have hne : (c != '\n') = true := by simp [hc]
      simp only [List.takeWhile_cons, hne, if_true, List.mem_cons, not_or] at h
      simp [dotStarClose, hc, ih h.2, Ne.symm h.1]

theorem dotStarClose_to_last_paren (T : List Char) (hT : dotStarClose T = none) :
    ∀ vs : List Char, '\n' ∉ vs → dotStarClose (vs ++ ')' :: T) = some T := by
  intro vs
  induction vs with
  | nil =>
    intro _
    have h1 : ¬ (')' = '\n') := by decide
    simp [dotStarClose, hT, h1]
  | cons c cs ih =>
    intro h
    simp only [List.mem_cons, not_or] at h
    simp [dotStarClose, Ne.symm h.1, ih h.2]

theorem matchVarDefs_list (vars T : List Char) (hne : vars ≠ []) (hnl : '\n' ∉ vars)
    (hT : ')' ∉ T.takeWhile (fun c => c != '\n')) :
    matchVarDefs ('(' :: (vars ++ ')' :: T)) = T.dropWhile isSpace := by
  cases vars with
  | nil => exact absurd rfl hne
  | cons v vs =>
    simp only [List.mem_cons, not_or] at hnl
    simp [matchVarDefs, dotPlusClose, Ne.symm hnl.1,
      dotStarClose_to_last_paren T (dotStarClose_none_of_line T hT) vs hnl.2]

theorem head_paren_not (p : Char → Bool) (hp : p '(' = false) (Z : List Char) :
    ∀ d, ('(' :: Z).head? = some d → p d = false := by
  intro d hd
  simp at hd
  subst hd
  exact hp

theorem head_spaces_paren_not_alnum (w Z : List Char) (hw : ∀ c ∈ w, isSpace c = true) :
    ∀ d, (w ++ '(' :: Z).head? = some d → isAlnum d = false := by
  intro d hd
  cases w with
  | nil =>
    simp at hd
    subst hd
    decide
  | cons e es =>
    simp at hd
    subst hd
    exact isSpace_not_alnum e (hw e (List.mem_cons_self _ _))

/-- After the keyword, `\s*([a-zA-Z0-9]*\s*)?` takes the blanks, the name and the blanks
behind it, and stops in front of the opening parenthesis. -/
theorem skip_name (w₁ name w₂ V : List Char) (hw₁ : ∀ c ∈ w₁, isSpace c = true)
    (hname : ∀ c ∈ name, isAlnum c = true) (hw₂ : ∀ c ∈ w₂, isSpace c = true) :
    (((w₁ ++ (name ++ (w₂ ++ '(' :: V))).dropWhile isSpace).dropWhile isAlnum).dropWhile
      isSpace = '(' :: V := by
  rw [dropWhile_append_all isSpace _ w₁ hw₁]
  cases name with
  | nil =>
    rw [List.nil_append,
      dropWhile_all_then isSpace w₂ _ hw₂ (head_paren_not isSpace (by decide) V),
      dropWhile_of_head isAlnum _ (head_paren_not isAlnum (by decide) V),
      dropWhile_of_head isSpace _ (head_paren_not isSpace (by decide) V)]
  | cons n ns =>
    have hn : isSpace n = false := isAlnum_not_space n (hname n (List.mem_cons_self _ _))
    rw [dropWhile_of_head isSpace (n :: ns ++ (w₂ ++ '(' :: V)) (by
        intro d hd
        simp at hd
        subst hd
        exact hn),
      dropWhile_all_then isAlnum (n :: ns) _ hname (head_spaces_paren_not_alnum w₂ V hw₂),
      dropWhile_all_then isSpace w₂ _ hw₂ (head_paren_not isSpace (by decide) V)]

theorem matchOperation_named_query (w₁ name w₂ vars w₃ Z : List Char)
    (hw₁ : ∀ c ∈ w₁, isSpace c = true) (hname : ∀ c ∈ name, isAlnum c = true)
    (hw₂ : ∀ c ∈ w₂, isSpace c = true) (hne : vars ≠ []) (hnl : '\n' ∉ vars)
    (hw₃ : ∀ c ∈ w₃, isSpace c = true)
    (hline : ')' ∉ (w₃ ++ '{' :: Z).takeWhile (fun c => c != '\n')) :
    matchOperation
        (kwQuery ++ (w₁ ++ (name ++ (w₂ ++ '(' :: (vars ++ ')' :: (w₃ ++ '{' :: Z)))))) =
      some ('{' :: Z) := by
  simp only [matchOperation, matchKeyword_query]
  rw [skip_name w₁ name w₂ _ hw₁ hname hw₂, matchVarDefs_list vars _ hne hnl hline,
    dropWhile_all_then isSpace w₃ _ hw₃ (head_brace_not isSpace (by decide) Z)]

theorem root_eq_empty_iff (q : String) : query.root q = "" ↔ rootChars q.data = [] := by
  unfold query.root
  constructor
  · intro h
    have h1 := congrArg String.data h
    simpa using h1
  · intro h
    rw [h]

/-! ## Claims about `query.root` -/

/-- C3: an operation text with fewer than two `{` characters has the empty root. -/
theorem root_empty_of_fewer_than_two_braces (q : String) (h : q.data.count '{' < 2) :
    query.root q = "" :=
  (root_eq_empty_iff q).mpr (rootChars_of_fewer_than_two_braces q.data h)

/-- Instance of C3 at the text `query Q { id }`, which has one `{`. -/
theorem root_empty_of_fewer_than_two_braces_witness :
    "query Q { id }".data.count '{' < 2 ∧ query.root "query Q { id }" = "" :=
  ⟨by decide, root_empty_of_fewer_than_two_braces "query Q { id }" (by decide)⟩

/-- C10: when the text contains none of the words `query`, `mutation`, `subscription`,
the stripping step returns it unchanged; the root is empty exactly when the text has
fewer than two `{` or the segment between the first two `{` has no character of
`[a-zA-Z_]`; and otherwise the root is the leftmost, longest match of
`[a-zA-Z_][a-zA-Z0-9_]*` in that segment. -/
theorem root_of_keyword_free (q : String) (hq : ¬ kwQuery <:+: q.data)
    (hm : ¬ kwMutation <:+: q.data) (hs : ¬ kwSubscription <:+: q.data) :
    replaceAll q.data = q.data ∧
    (query.root q = "" ↔
      (q.data.count '{' < 2 ∨
        ∃ a seg rest, q.data = a ++ '{' :: (seg ++ '{' :: rest) ∧ '{' ∉ a ∧ '{' ∉ seg ∧
          ∀ c ∈ seg, isIdentStart c = false)) ∧
    (∀ a seg rest, q.data = a ++ '{' :: (seg ++ '{' :: rest) → '{' ∉ a → '{' ∉ seg →
      (∃ c ∈ seg, isIdentStart c = true) →
        IsLeftmostLongestIdent seg (query.root q).data) := by
  have hfq : replaceAll q.data = q.data := replaceAllAux_of_no_keyword q.data hq hm hs
  have hroot : ∀ a seg rest, q.data = a ++ '{' :: (seg ++ '{' :: rest) → '{' ∉ a →
      '{' ∉ seg → rootChars q.data = (findIdent seg).getD [] := by
    intro a seg rest hd ha hseg
    exact rootChars_of_split q.data a seg rest (hfq.trans hd) ha hseg
  refine ⟨hfq, ?_, ?_⟩
  · rw [root_eq_empty_iff]
    constructor
    · intro h
      by_cases hc : q.data.count '{' < 2
      · exact Or.inl hc
      · obtain ⟨a, seg, rest, hd, ha, hseg⟩ := exists_two_braces '{' q.data (by omega)
        refine Or.inr ⟨a, seg, rest, hd, ha, hseg, ?_⟩
        rw [hroot a seg rest hd ha hseg] at h
        cases hf : findIdent seg with
        | none => exact (findIdent_eq_none seg).mp hf
        | some m =>
          obtain ⟨-, -, -, -, ⟨c, t, hm', -, -⟩, -⟩ := findIdent_sound seg m hf
          rw [hf, hm'] at h
          simp at h
    · rintro (hc | ⟨a, seg, rest, hd, ha, hseg, hno⟩)
      · exact rootChars_of_fewer_than_two_braces q.data hc
      · rw [hroot a seg rest hd ha hseg, (findIdent_eq_none seg).mpr hno]
        rfl
  · intro a seg rest hd ha hseg hex
    show IsLeftmostLongestIdent seg (rootChars q.data)
    rw [hroot a seg rest hd ha hseg]
    cases hf : findIdent seg with
    | none =>
      obtain ⟨c, hc, hcs⟩ := hex
      rw [(findIdent_eq_none seg).mp hf c hc] at hcs
      exact absurd hcs (by simp)
    | some m => exact findIdent_sound seg m hf

/-- Instance of C10 at the shorthand operation `{ user { id } }`. -/
theorem root_of_keyword_free_witness :
    replaceAll "{ user { id } }".data = "{ user { id } }".data ∧
      IsLeftmostLongestIdent " user ".data (query.root "{ user { id } }").data :=
  have h := root_of_keyword_free "{ user { id } }" (by decide) (by decide) (by decide)
  ⟨h.1, h.2.2 [] " user ".data " id \x7d \x7d".data rfl (by decide) (by decide)
    ⟨'u', by decide, by decide⟩⟩

/-- Named queries on which the root is resolved: for `query`, blanks, an alphanumeric
name, blanks, a non-empty variable list in parentheses on one line, blanks, `{`, blanks,
an identifier `root` holding none of the three keywords, blanks, `{` and any further
text, where no `)` follows the closing parenthesis of the variable list on its line,
`query.root` returns `root`. -/
theorem root_of_named_query (w₁ name w₂ vars w₃ w₄ root w₅ rest : List Char)
    (hw₁ : ∀ c ∈ w₁, isSpace c = true) (hname : ∀ c ∈ name, isAlnum c = true)
    (hw₂ : ∀ c ∈ w₂, isSpace c = true) (hne : vars ≠ []) (hnl : '\n' ∉ vars)
    (hw₃ : ∀ c ∈ w₃, isSpace c = true) (hw₄ : ∀ c ∈ w₄, isSpace c = true)
    (hroot : IsIdentifier root) (hw₅ : ∀ c ∈ w₅, isSpace c = true)
    (hline : ')' ∉ (w₃ ++ '{' :: (w₄ ++ root ++ w₅ ++ '{' :: rest)).takeWhile
      (fun c => c != '\n'))
    (hq : ¬ kwQuery <:+: root) (hm : ¬ kwMutation <:+: root)
    (hs : ¬ kwSubscription <:+: root) :
    query.root (String.mk (kwQuery ++ (w₁ ++ (name ++ (w₂ ++ '(' :: (vars ++ ')' ::
      (w₃ ++ '{' :: (w₄ ++ root ++ w₅ ++ '{' :: rest)))))))) = String.mk root := by
  unfold query.root
  rw [rootChars_of_stripped _ w₄ root w₅ rest
    (replaceAllAux_of_match _ _
      (matchOperation_named_query w₁ name w₂ vars w₃ _ hw₁ hname hw₂ hne hnl hw₃ hline))
    hw₄ hroot hw₅ hq hm hs]

/-- The named query `query Name($a: Int) { root { nested } }` has the root `root`. -/
theorem root_of_named_query_witness :
    query.root "query Name($a: Int) { root { nested } }" = "root" :=
  root_of_named_query [' '] ['N', 'a', 'm', 'e'] [] ['$', 'a', ':', ' ', 'I', 'n', 't']
    [' '] [' '] ['r', 'o', 'o', 't'] [' '] [' ', 'n', 'e', 's', 't', 'e', 'd', ' ', '}', ' ', '}']
    (by decide) (by decide) (by decide) (by decide) (by decide) (by decide) (by decide)
    ⟨'r', ['o', 'o', 't'], rfl, by decide, by decide⟩ (by decide) (by decide) (by decide)
    (by decide) (by decide)

/-- C1 (the code at the failing inputs): two operations of the claimed form whose root
is not returned. In the first the nested selection has an argument list on the line of
the variable list, and the greedy `\(.+\)` deletes the text up to its `)`; in the
second the root field `queryUsers` holds a keyword and is deleted as a second match. -/
theorem root_of_named_query_fails :
    query.root "query Q($a: Int) { root { f(x: 1) } }" = "" ∧
    query.root "query Q($a: Int) { queryUsers { id } }" = "" := by
  decide

/-- Anonymous mutations on which the root is resolved: for `mutation`, blanks, `{`,
blanks, an identifier `f` holding none of the three keywords, blanks, `{` and any
further text, `query.root` returns `f`. -/
theorem root_of_anonymous_mutation (w₀ w₁ f w₂ rest : List Char)
    (hw₀ : ∀ c ∈ w₀, isSpace c = true) (hw₁ : ∀ c ∈ w₁, isSpace c = true)
    (hf : IsIdentifier f) (hw₂ : ∀ c ∈ w₂, isSpace c = true)
    (hq : ¬ kwQuery <:+: f) (hm : ¬ kwMutation <:+: f) (hs : ¬ kwSubscription <:+: f) :
    query.root (String.mk (kwMutation ++ (w₀ ++ '{' :: (w₁ ++ f ++ w₂ ++ '{' :: rest)))) =
      String.mk f := by
  unfold query.root
  rw [rootChars_of_stripped _ w₁ f w₂ rest
    (replaceAllAux_of_match _ _ (matchOperation_mutation w₀ _ hw₀)) hw₁ hf hw₂ hq hm hs]

/-- The mutation `mutation { createThing { id } }` has the root `createThing`. -/
theorem root_of_anonymous_mutation_witness :
    query.root "mutation { createThing { id } }" = "createThing" :=
  root_of_anonymous_mutation [' '] [' ']
    ['c', 'r', 'e', 'a', 't', 'e', 'T', 'h', 'i', 'n', 'g'] [' ']
    [' ', 'i', 'd', ' ', '}', ' ', '}'] (by decide) (by decide)
    ⟨'c', ['r', 'e', 'a', 't', 'e', 'T', 'h', 'i', 'n', 'g'], rfl, by decide, by decide⟩
    (by decide) (by decide) (by decide) (by decide)

/-- C2 (the code at the failing inputs): for the field `insert_subscription` the root
returned is `insert_`, and for the field `mutation` it is empty: the keyword inside the
field name is deleted as a second match. -/
theorem root_of_anonymous_mutation_fails :
    query.root "mutation { insert_subscription { id } }" = "insert_" ∧
    query.root "mutation { mutation { id } }" = "" := by
  decide

/-! ## Claims about `Repository.request` -/

theorem existsNotNull_some (data : Json) (h : data ≠ Json.null) :
    existsNotNull (some data) = true := by
  cases data <;> simp [existsNotNull] at h ⊢

/-- C4: when `data` is present, not null and holds the value `v` under the root of the
operation, and `v` decodes into the container without error, `request` returns nil and
leaves the decoded `v` in the container, whatever else the envelope carries
(`errors` and `error` are not looked at). -/
theorem request_populates_container {σ : Type} (r : Repository) (post : Transport)
    (C : Container σ) (q : String) (opts : List callOption) (target filled : σ)
    (data v : Json)
    (hdata : gjsonGet (post (r.buildRequest q opts) r.endpoint).1.Body "data" = some data)
    (hnull : data ≠ Json.null) (_hroot : query.root q ≠ "")
    (hv : gjsonGet data (query.root q) = some v)
    (hfit : C.unmarshal v target = (filled, none)) :
    r.request post C q (some target) opts = (none, some filled) := by
  unfold Repository.request
  simp only [hdata, existsNotNull_some data hnull, if_true, Option.bind, hv, jsonUnmarshal,
    hfit]

/-- Instance of C4: `data` holds `{"id":5}` under `root`, `errors` and `error` are present
as well, and the container `*interface{}` receives `{"id":5}`. -/
theorem request_populates_container_witness :
    (NewRepository "http://localhost/graphql" []).request
        (fun _ _ => (⟨envelopeWithData⟩, none)) anyContainer
        "query Name($a: Int) { root { id } }" (some none) [] =
      (none, some (some (Json.obj [("id", Json.num 5)]))) :=
  request_populates_container (NewRepository "http://localhost/graphql" [])
    (fun _ _ => (⟨envelopeWithData⟩, none)) anyContainer
    "query Name($a: Int) { root { id } }" [] none (some (Json.obj [("id", Json.num 5)]))
    (Json.obj [("root", Json.obj [("id", Json.num 5)])]) (Json.obj [("id", Json.num 5)])
    rfl (fun h => Json.noConfusion h) (by decide)
    (by rw [show query.root "query Name($a: Int) { root { id } }" = "root" from by decide]; rfl)
    rfl

/-- C5 (the code at the failing inputs): for `data` without the root key, and for a
value under the root that does not fit the container, `json.Unmarshal` reports an error
and `request` still returns nil, the container left as it was. -/
theorem request_drops_unmarshal_error :
    ((jsonUnmarshal anyContainer
        (gjsonGet (Json.obj [("other", Json.num 1)]) (query.root "{ user { id } }"))
        none).2.isSome = true ∧
      (NewRepository "http://localhost/graphql" []).request
        (fun _ _ => (⟨Json.obj [("data", Json.obj [("other", Json.num 1)])]⟩, none))
        anyContainer "{ user { id } }" (some none) [] = (none, some none)) ∧
    ((jsonUnmarshal intContainer
        (gjsonGet (Json.obj [("user", Json.str "abc")]) (query.root "{ user { id } }"))
        7).2.isSome = true ∧
      (NewRepository "http://localhost/graphql" []).request
        (fun _ _ => (⟨Json.obj [("data", Json.obj [("user", Json.str "abc")])]⟩, none))
        intContainer "{ user { id } }" (some 7) [] = (none, some 7)) := by
  have hroot : query.root "{ user { id } }" = "user" := by decide
  rw [hroot]
  exact ⟨⟨rfl, rfl⟩, ⟨rfl, rfl⟩⟩

/-- C6 (the code at the failing input): for `data: null` and an `errors` array whose
first entry carries `extensions.error` with code `BAD`, status 422 and metadata,
`request` returns nil. -/
theorem request_structured_error_returns_nil :
    ((NewRepository "http://localhost/graphql" []).request
      (fun _ _ => (⟨envelopeStructuredError⟩, none)) anyContainer
      "{ user { id } }" (some none) []).1 = none := by
  rfl

/-- C7 (the code at the failing inputs): `newRequestError` returns nil for every
argument, and `request` returns nil both for `errors: [{"message":"x"}]` and for an
envelope that only has `error`. -/
theorem request_error_returns_nil :
    (∀ (α : Type) (errs : α), newRequestError errs = none) ∧
    ((NewRepository "http://localhost/graphql" []).request
      (fun _ _ => (⟨Json.obj [("errors", Json.arr [Json.obj [("message", Json.str "x")]])]⟩,
        none)) anyContainer "{ user { id } }" (some none) []).1 = none ∧
    ((NewRepository "http://localhost/graphql" []).request
      (fun _ _ => (⟨Json.obj [("error", Json.str "not found")]⟩, none)) anyContainer
      "{ user { id } }" (some none) []).1 = none :=
  ⟨fun _ _ => rfl, rfl, rfl⟩

/-- C8 (the code at the failing inputs): for the body `{}` and for the body
`{"data":null}`, the transport reporting no error, `request` returns nil. -/
theorem request_unrecognised_body_returns_nil :
    ((NewRepository "http://localhost/graphql" []).request
      (fun _ _ => (⟨Json.obj []⟩, none)) anyContainer
      "{ user { id } }" (some none) []).1 = none ∧
    ((NewRepository "http://localhost/graphql" []).request
      (fun _ _ => (⟨Json.obj [("data", Json.null)]⟩, none)) anyContainer
      "{ user { id } }" (some none) []).1 = none :=
  ⟨rfl, rfl⟩

/-! ## Claims about the header merge -/

theorem lookup_foldl_insert (k : String) :
    ∀ (l : List (Sigma fun _ : String => String)) (_ : l.NodupKeys) (m : HeaderMap),
      (l.foldl (fun acc e => acc.insert e.1 e.2) m).lookup k =
        firstSome (l.dlookup k) (m.lookup k) := by
  intro l
  induction l with
  | nil => intro _ m; simp [firstSome]
  | cons e t ih =>
    intro hl m
    obtain ⟨a, b⟩ := e
    rw [List.nodupKeys_cons] at hl
    rw [List.foldl_cons, ih hl.2]
    by_cases hk : k = a
    · subst hk
      rw [List.dlookup_cons_eq, List.dlookup_eq_none.mpr hl.1, AList.lookup_insert]
      rfl
    · rw [List.dlookup_cons_ne _ _ hk, AList.lookup_insert_ne hk]

theorem lookup_setAll (dst : HeaderMap) (src : Option HeaderMap) (k : String) :
    (setAll dst src).lookup k = firstSome (getHeader src k) (dst.lookup k) := by
  cases src with
  | none => simp [setAll, getHeader, firstSome]
  | some m =>
    simp only [setAll, getHeader]
    rw [lookup_foldl_insert k m.entries m.nodupKeys dst]
    rfl

theorem firstSome_assoc (a b c : Option String) :
    firstSome (firstSome a b) c = firstSome a (firstSome b c) := by
  cases a <;> rfl

theorem firstSome_none_right (a : Option String) : firstSome a none = a := by
  cases a <;> rfl

theorem getHeader_WithRequestHeader (h : Option HeaderMap) (c : call) (k : String) :
    getHeader (WithRequestHeader h c).headers k =
      firstSome (getHeader h k) (getHeader c.headers k) := by
  simp only [WithRequestHeader, getHeader]
  rw [lookup_setAll]
  cases hc : c.headers <;> simp [getHeader]

theorem getHeader_foldl_WithRequestHeader (k : String) :
    ∀ (hs : List (Option HeaderMap)) (c : call),
      getHeader ((hs.map WithRequestHeader).foldl (fun c opt => opt c) c).headers k =
        firstSome (perCallValue hs k) (getHeader c.headers k) := by
  intro hs
  induction hs with
  | nil => intro c; simp [perCallValue, firstSome]
  | cons h t ih =>
    intro c
    rw [List.map_cons, List.foldl_cons, ih, getHeader_WithRequestHeader, perCallValue,
      firstSome_assoc]

theorem getHeader_NewRepository (endpoint : String) (G : Option HeaderMap) (k : String) :
    getHeader (NewRepository endpoint [WithGlobalHeaders G]).headers k =
      if k = "Content-Type" then some "application/json" else getHeader G k := by
  cases G with
  | none =>
    simp only [NewRepository, WithGlobalHeaders, List.foldl, getHeader]
    by_cases hk : k = "Content-Type"
    · subst hk; simp [← AList.insert_empty, AList.lookup_insert]
    · simp [hk, ← AList.insert_empty, AList.lookup_insert_ne hk]
  | some g =>
    simp only [NewRepository, WithGlobalHeaders, List.foldl, getHeader]
    by_cases hk : k = "Content-Type"
    · subst hk; simp [AList.lookup_insert]
    · simp [hk, AList.lookup_insert_ne hk]

theorem noClash_of_subset (A B : List String) (hsub : ∀ k ∈ A, k ∈ B) (hB : NoClash B) :
    NoClash A :=
  fun k₁ h₁ k₂ h₂ h => hB k₁ (hsub k₁ h₁) k₂ (hsub k₂ h₂) h

theorem lookup_foldl_canonical :
    ∀ (l : List (Sigma fun _ : String => String)) (_ : l.NodupKeys) (_ : NoClash l.keys)
      (req : Request),
      (∀ k v, l.dlookup k = some v →
        (l.foldl (fun acc e => acc.SetHeader e.1 e.2) req).Header.lookup
          (CanonicalMIMEHeaderKey k) = some v) ∧
      (∀ K, (∀ k, CanonicalMIMEHeaderKey k = K → l.dlookup k = none) →
        (l.foldl (fun acc e => acc.SetHeader e.1 e.2) req).Header.lookup K =
          req.Header.lookup K) := by
  intro l
  induction l with
  | nil =>
    intro _ _ req
    exact ⟨fun k v h => by simp at h, fun K _ => rfl⟩
  | cons e t ih =>
    intro hnd hinj req
    obtain ⟨a, b⟩ := e
    rw [List.nodupKeys_cons] at hnd
    have hinj' : NoClash t.keys :=
      noClash_of_subset _ _ (fun k hk => by simp [List.keys_cons, hk]) hinj
    obtain ⟨ih1, ih2⟩ := ih hnd.2 hinj' (req.SetHeader a b)
    rw [List.foldl_cons]
    constructor
    · intro k v hkv
      by_cases hk : k = a
      · subst hk
        rw [List.dlookup_cons_eq] at hkv
        simp only [Option.some.injEq] at hkv
        subst hkv
        rw [ih2 (CanonicalMIMEHeaderKey k) ?_]
        · exact AList.lookup_insert _
        · intro k' hk'
          rw [List.dlookup_eq_none]
          intro hmem
          have hkk : k' = k :=
            hinj k' (by simp [List.keys_cons, hmem]) k (by simp [List.keys_cons]) hk'
          rw [hkk] at hmem
          exact hnd.1 hmem
      · rw [List.dlookup_cons_ne _ _ hk] at hkv
        exact ih1 k v hkv
    · intro K hK
      have haK : CanonicalMIMEHeaderKey a ≠ K := by
        intro h
        have := hK a h
        rw [List.dlookup_cons_eq] at this
        exact absurd this (by simp)
      rw [ih2 K ?_]
      · exact AList.lookup_insert_ne (Ne.symm haK)
      · intro k hk
        have hka : k ≠ a := by
          intro h
          rw [h] at hk
          exact haK hk
        have := hK k hk
        rwa [List.dlookup_cons_ne _ _ hka] at this

theorem mem_keysOf_iff (m : Option HeaderMap) (k : String) :
    k ∈ keysOf m ↔ getHeader m k ≠ none := by
  cases m with
  | none => simp [keysOf, getHeader]
  | some h =>
    simp only [keysOf, getHeader, ne_eq, AList.lookup_eq_none, not_not]
    exact AList.mem_keys.symm

theorem lookup_SetHeaders_of_mem (req : Request) (src : Option HeaderMap)
    (hsrc : NoClash (keysOf src)) (k v : String) (h : getHeader src k = some v) :
    (req.SetHeaders src).Header.lookup (CanonicalMIMEHeaderKey k) = some v := by
  cases src with
  | none => simp [getHeader] at h
  | some m => exact (lookup_foldl_canonical m.entries m.nodupKeys hsrc req).1 k v h

theorem lookup_SetHeaders_of_not_mem (req : Request) (src : Option HeaderMap)
    (hsrc : NoClash (keysOf src)) (K : String)
    (h : ∀ k, CanonicalMIMEHeaderKey k = K → getHeader src k = none) :
    (req.SetHeaders src).Header.lookup K = req.Header.lookup K := by
  cases src with
  | none => rfl
  | some m => exact (lookup_foldl_canonical m.entries m.nodupKeys hsrc req).2 K h

theorem perCallValue_mem_keys :
    ∀ (hs : List (Option HeaderMap)) (k : String),
      k ∈ perCallKeys hs ↔ perCallValue hs k ≠ none := by
  intro hs
  induction hs with
  | nil => intro k; simp [perCallKeys, perCallValue]
  | cons h t ih =>
    intro k
    simp only [perCallKeys, perCallValue, List.mem_append, ih k, mem_keysOf_iff]
    cases perCallValue t k <;> simp [firstSome]

theorem canonicalValue_eq_some (value : String → Option String) (keys : List String)
    (K v : String) (h : canonicalValue value keys K = some v) :
    ∃ k, CanonicalMIMEHeaderKey k = K ∧ value k = some v := by
  unfold canonicalValue at h
  split at h
  · rename_i k hk
    exact ⟨k, by simpa using List.find?_some hk, h⟩
  · simp at h

theorem canonicalValue_eq_none (value : String → Option String) (keys : List String)
    (hkeys : ∀ k, k ∈ keys ↔ value k ≠ none) (K : String)
    (h : canonicalValue value keys K = none) :
    ∀ k, CanonicalMIMEHeaderKey k = K → value k = none := by
  intro k hk
  unfold canonicalValue at h
  split at h
  · rename_i k' hk'
    exact absurd h ((hkeys k').mp (List.mem_of_find?_eq_some hk'))
  · rename_i hnone
    by_contra hv
    have hmem := (hkeys k).mpr hv
    have := List.find?_eq_none.mp hnone k hmem
    simp [hk] at this

theorem canonical_content_type :
    CanonicalMIMEHeaderKey "Content-Type" = "Content-Type" := by
  decide

/-- C9 (amended): header names are stored in canonical form; when no two names of the
global map together with `Content-Type`, and no two names of the per-call maps, have
the same canonical form, the request built for a call maps each name `K` to the
per-call value of the key with canonical form `K` if the per-call maps have such a key
(the last map holding it winning); otherwise to `application/json` if `K` is
`Content-Type`; otherwise to the global value of the key with canonical form `K` if the
global map has such a key; and the request has no other name. -/
theorem toRequest_header_precedence (endpoint q : String) (G : Option HeaderMap)
    (hs : List (Option HeaderMap)) (K : String)
    (hG : NoClash ("Content-Type" :: keysOf G)) (hP : NoClash (perCallKeys hs)) :
    ((NewRepository endpoint [WithGlobalHeaders G]).buildRequest q
        (hs.map WithRequestHeader)).Header.lookup K = sentHeader G hs K := by
  have hP' : ∀ k, getHeader ((hs.map WithRequestHeader).foldl (fun (c : call) (opt : callOption) => opt c)
      ({ query := q, vars := none, headers := none } : call)).headers k = perCallValue hs k := by
    intro k
    rw [getHeader_foldl_WithRequestHeader]
    exact firstSome_none_right _
  have hR := getHeader_NewRepository endpoint G
  have hRkeys : NoClash (keysOf (NewRepository endpoint [WithGlobalHeaders G]).headers) := by
    refine noClash_of_subset _ _ ?_ hG
    intro k hk
    rw [mem_keysOf_iff, hR] at hk
    by_cases hkc : k = "Content-Type"
    · simp [hkc]
    · rw [if_neg hkc] at hk
      exact List.mem_cons_of_mem _ ((mem_keysOf_iff G k).mpr hk)
  have hPkeys : NoClash (keysOf ((hs.map WithRequestHeader).foldl (fun (c : call) (opt : callOption) => opt c)
      ({ query := q, vars := none, headers := none } : call)).headers) := by
    refine noClash_of_subset _ _ ?_ hP
    intro k hk
    rw [mem_keysOf_iff, hP'] at hk
    exact (perCallValue_mem_keys hs k).mpr hk
  simp only [Repository.buildRequest, call.toRequest, Request.SetBody, sentHeader]
  cases hc : canonicalValue (perCallValue hs) (perCallKeys hs) K with
  | some v =>
    obtain ⟨k, hk, hv⟩ := canonicalValue_eq_some _ _ K v hc
    rw [← hP'] at hv
    rw [← hk]
    exact lookup_SetHeaders_of_mem _ _ hPkeys k v hv
  | none =>
    have hnone := canonicalValue_eq_none _ _ (perCallValue_mem_keys hs) K hc
    rw [lookup_SetHeaders_of_not_mem _ _ hPkeys K (fun k hk => by rw [hP']; exact hnone k hk)]
    show _ = (if K = "Content-Type" then some "application/json"
      else canonicalValue (getHeader G) (keysOf G) K)
    by_cases hK : K = "Content-Type"
    · rw [if_pos hK, hK]
      have h1 := lookup_SetHeaders_of_mem (Client.R
        (NewRepository endpoint [WithGlobalHeaders G]).client) _ hRkeys "Content-Type"
        "application/json" (by rw [hR]; simp)
      rwa [canonical_content_type] at h1
    · rw [if_neg hK]
      cases hg : canonicalValue (getHeader G) (keysOf G) K with
      | some v =>
        obtain ⟨k, hk, hv⟩ := canonicalValue_eq_some _ _ K v hg
        have hkc : k ≠ "Content-Type" := by
          intro h
          rw [h, canonical_content_type] at hk
          exact hK hk.symm
        rw [← hk]
        exact lookup_SetHeaders_of_mem _ _ hRkeys k v (by rw [hR, if_neg hkc]; exact hv)
      | none =>
        have hgn := canonicalValue_eq_none _ _ (mem_keysOf_iff G) K hg
        rw [lookup_SetHeaders_of_not_mem _ _ hRkeys K ?_]
        · rfl
        · intro k hk
          have hkc : k ≠ "Content-Type" := by
            intro h
            rw [h, canonical_content_type] at hk
            exact hK hk.symm
          rw [hR, if_neg hkc]
          exact hgn k hk

/-- Instance of C9 (amended): with the global map `{"x-token":"1"}` and the per-call map
`{"A":"2","B":"3"}` the request carries `X-Token: 1`. -/
theorem toRequest_header_precedence_witness :
    ((NewRepository "http://localhost/graphql"
        [WithGlobalHeaders (some (AList.singleton "x-token" "1"))]).buildRequest
        "{ user { id } }"
        ([some ((AList.singleton "A" "2").insert "B" "3")].map
          WithRequestHeader)).Header.lookup "X-Token" = some "1" :=
  (toRequest_header_precedence "http://localhost/graphql" "{ user { id } }"
    (some (AList.singleton "x-token" "1")) [some ((AList.singleton "A" "2").insert "B" "3")]
    "X-Token" (by decide) (by decide)).trans (by decide)

/-- The header merge on the maps `{"A":"1"}` (global) and `{"A":"2","B":"3"}` (per call):
the request carries `Content-Type: application/json`, `A: 2`, `B: 3` and nothing under
another key such as `C`. -/
theorem header_merge_example :
    let req := (NewRepository "http://localhost/graphql"
      [WithGlobalHeaders (some (AList.singleton "A" "1"))]).buildRequest "{ user { id } }"
      [WithRequestHeader (some ((AList.singleton "A" "2").insert "B" "3"))]
    req.Header.lookup "Content-Type" = some "application/json" ∧
      req.Header.lookup "A" = some "2" ∧ req.Header.lookup "B" = some "3" ∧
      req.Header.lookup "C" = none := by
  decide

/-- A per-call `content-type` replaces the content type written by `NewRepository`. -/
theorem per_call_content_type_example :
    ((NewRepository "http://localhost/graphql" []).buildRequest "{ user { id } }"
        [WithRequestHeader (some (AList.singleton "content-type" "text/plain"))]).Header.lookup
      "Content-Type" = some "text/plain" := by
  decide

/-- C9 (counterexample): with the global map `{"Content-Type":"text/plain"}` and no
per-call header, the request carries `Content-Type: application/json`, where the
claimed precedence gives the global value `text/plain`; and with the global map
`{"x-token":"1"}` the request has nothing under `x-token` (the value is under
`X-Token`), where the claim keeps the key. -/
theorem global_content_type_is_overwritten :
    (((NewRepository "http://localhost/graphql" [WithGlobalHeaders (some plainTextGlobal)]).buildRequest
        "{ user { id } }" []).Header.lookup "Content-Type" = some "application/json" ∧
      claimedHeader (some plainTextGlobal) [] "Content-Type" = some "text/plain") ∧
    (((NewRepository "http://localhost/graphql"
        [WithGlobalHeaders (some (AList.singleton "x-token" "1"))]).buildRequest
        "{ user { id } }" []).Header.lookup "x-token" = none ∧
      claimedHeader (some (AList.singleton "x-token" "1")) [] "x-token" = some "1") := by
  decide

end Hentities
